import Mathlib

/-!
Shallow embedding of the history-log pagination and blame-range aggregation
core of the svn-scm extension, together with theorems checking the
specification's claims against it.

Embedded source files:
  - `src/historyView/common.ts` (`needFetch`, `fetchMore`, `getLimit`,
    `RepoLogProvider.openDiffCmd`, `RepoLogProvider.refresh`),
  - `src/historyView/gutterBlame.ts` (`transformBlames`),
  - `src/historyView/itemLogProvider.ts` (`findSimilarPath`),
  - `src/logParser.ts` (shape of log records, `fromMerge` marking).

JavaScript numbers that the code produces from revision strings are modelled
as `Int` (all arithmetic in the code stays integral), strings as `String`,
`undefined`-able fields as `Option`, thrown exceptions as `Except`, and the
opaque SVN backend (`repo.log`) as an explicit oracle function passed in.
The file lists all definitions first and all theorems after them.
-/

/-- Decimal digit character for a digit value; values `9` and above render
as `'9'` (callers only use it with values below ten). -/
def digitChar (d : Nat) : Char :=
  match d with
  | 0 => '0'
  | 1 => '1'
  | 2 => '2'
  | 3 => '3'
  | 4 => '4'
  | 5 => '5'
  | 6 => '6'
  | 7 => '7'
  | 8 => '8'
  | _ => '9'

/-- Numeric value of a list of decimal digit characters, most significant
first, as JavaScript's digit accumulation computes it. -/
def decValue (cs : List Char) : Int :=
  cs.foldl (fun a c => a * 10 + ((c.toNat : Int) - 48)) 0

/-- Decimal digit characters of a natural number, most significant first.
The first argument is structural-recursion fuel; any fuel above the input
gives the final value (see `natCharsAux_spec`). -/
def natCharsAux : Nat → Nat → List Char
  | 0, _ => []
  | fuel + 1, n =>
    if n < 10 then [digitChar n]
    else natCharsAux fuel (n / 10) ++ [digitChar (n % 10)]

/-- Decimal digit characters of a natural number, most significant first. -/
def natChars (n : Nat) : List Char := natCharsAux (n + 1) n

/-- Characters of the decimal rendering of an integer, as JavaScript's
`Number.prototype.toString` renders an integral number. -/
def intChars (n : Int) : List Char :=
  if n < 0 then '-' :: natChars (-n).toNat else natChars n.toNat

/-- Model of JavaScript `(integer).toString()`: canonical decimal rendering. -/
def intToString (n : Int) : String := String.mk (intChars n)

/-- Numeric value of the maximal leading run of decimal digits, or `none`
when that run is empty (JavaScript's `NaN` outcome). -/
def parseDigitsLeading (cs : List Char) : Option Int :=
  let ds := cs.takeWhile (fun c => c.isDigit)
  if ds.isEmpty then none else some (decValue ds)

/-- Character-list core of `jsParseInt`: an optional sign followed by the
maximal leading run of decimal digits. -/
def jsParseIntChars (cs : List Char) : Option Int :=
  if cs.head? = some '-' then (parseDigitsLeading cs.tail).map (fun v => -v)
  else if cs.head? = some '+' then parseDigitsLeading cs.tail
  else parseDigitsLeading cs

/-- Model of JavaScript `Number.parseInt(s, 10)`: an optional sign followed
by the maximal leading run of decimal digits; `none` models `NaN`. Leading
whitespace trimming is not modelled (no caller passes padded strings), and
arithmetic is exact instead of IEEE-754-rounded. -/
def jsParseInt (s : String) : Option Int := jsParseIntChars s.data

/-- One changed path inside a log record. `pathStr` embeds the TypeScript
field named `_` (the text content of the `<path>` XML node); `action` is
the SVN action letter (`"A"`, `"D"`, `"M"`, `"R"`). -/
structure ISvnLogEntryPath where
  pathStr : String
  action : String
deriving DecidableEq

/-- One commit record of `svn log` output, as `logParser.ts` produces it.
`fromMerge` is set on sub-entries spliced in from merge info; the TypeScript
field is optional and absent means `false`. -/
structure ISvnLogEntry where
  revision : String
  author : String
  date : String
  msg : String
  paths : List ISvnLogEntryPath
  fromMerge : Bool := false
deriving DecidableEq

/-- The `persisted` sub-record of a cache entry (`ICachedLog.persisted`). -/
structure Persisted where
  commitFrom : String
  baseRevision : Option Int := none
  userAdded : Option Bool := none
deriving DecidableEq

/-- One revision-log cache entry (`ICachedLog` in `common.ts`). The opaque
`Uri` target is modelled by its string form; the `repo` backend handle is
passed separately as an oracle function. -/
structure ICachedLog where
  entries : List ISvnLogEntry
  svnTarget : String
  isComplete : Bool
  persisted : Persisted
deriving DecidableEq

/-- The SVN log backend (`repo.log(rfrom, rto, limit, target)`): an oracle
from the request to either a page of records or a thrown error (`.error`). -/
def LogBackend : Type :=
  String → String → Int → String → Except Unit (List ISvnLogEntry)

/-- Revision string of the last record of a list, when there is one. -/
def lastRevision? (l : List ISvnLogEntry) : Option String :=
  l.getLast?.map (fun e => e.revision)

/-- Embedding of `needFetch(cached, fetched, limit)` from
`src/historyView/common.ts` lines 77-92, clause for clause: the first guard
is `cached.length && cached[cached.length - 1].revision === "1"`, the second
`fetched.length === 0 || fetched[fetched.length - 1].revision === "1"`, the
third `fetched.length < limit`. -/
def needFetch (cached fetched : List ISvnLogEntry) (limit : Int) : Bool :=
  if cached.length ≠ 0 ∧ lastRevision? cached = some "1" then false
  else if fetched.length = 0 ∨ lastRevision? fetched = some "1" then false
  else if (fetched.length : Int) < limit then false
  else true

/-- Embedding of `getLimit()` from `src/historyView/common.ts` lines 127-136.
The `log.length` configuration value is passed in (`none` models an unset
setting); `configuration.get<string>("log.length") || "50"` replaces both
`undefined` and the empty string (the falsy strings) by `"50"`. A thrown
`Error` is modelled as `.error` carrying the message. -/
def getLimit (cfgLogLength : Option String) : Except String Int :=
  let raw :=
    match cfgLogLength with
    | none => "50"
    | some s => if s = "" then "50" else s
  match jsParseInt raw with
  | none => .error "Invalid log.length setting value"
  | some limit => if limit ≤ 0 then .error "Invalid log.length setting value" else .ok limit

/-- The starting revision `rfrom` computed by `fetchMore` (lines 108-113 of
`common.ts`): the literal last element's revision parsed and decremented when
`entries` is non-empty, else `persisted.commitFrom`. `parseInt` of a
non-numeral gives `NaN`, and `(NaN - 1).toString()` is `"NaN"`. -/
def fetchMoreRfrom (cached : ICachedLog) : String :=
  match cached.entries.getLast? with
  | none => cached.persisted.commitFrom
  | some e =>
    match jsParseInt e.revision with
    | some v => intToString (v - 1)
    | none => "NaN"

/-- Embedding of `fetchMore(cached)` from `src/historyView/common.ts` lines
107-125. The backend call is wrapped in `try { } catch { }`: a thrown backend
error is replaced by zero records. The returned `Nat` counts backend log
calls made by this invocation (the source calls `repo.log` exactly once,
unconditionally). A `getLimit` exception propagates out as `.error`. -/
def fetchMore (cfgLogLength : Option String) (backend : LogBackend)
    (cached : ICachedLog) : Except String (ICachedLog × Nat) :=
  match getLimit cfgLogLength with
  | .error e => .error e
  | .ok limit =>
    let moreCommits :=
      match backend (fetchMoreRfrom cached) "1" limit cached.svnTarget with
      | .ok l => l
      | .error _ => []
    let complete := if !needFetch cached.entries moreCommits limit then true else cached.isComplete
    .ok ({ cached with entries := cached.entries ++ moreCommits, isComplete := complete }, 1)

/-- A sequence of `n` successive `fetchMore` calls on one cache entry. -/
def fetchMoreIter (cfgLogLength : Option String) (backend : LogBackend) :
    Nat → ICachedLog → Except String ICachedLog
  | 0, cached => .ok cached
  | n + 1, cached =>
    match fetchMore cfgLogLength backend cached with
    | .ok (cached', _) => fetchMoreIter cfgLogLength backend n cached'
    | .error e => .error e

/-- Embedding of the per-entry reset performed by `RepoLogProvider.refresh`
on a fetch-more-less refresh click (`cached.entries = []; cached.isComplete
= false`). -/
def refreshReset (cached : ICachedLog) : ICachedLog :=
  { cached with entries := [], isComplete := false }

/-- Model of JavaScript `Array.prototype.findIndex` (returns `-1` when no
element matches); reference identity `e === parent` is modelled as structural
equality. -/
def jsFindIndexEq (entries : List ISvnLogEntry) (parent : ISvnLogEntry) : Int :=
  match entries.findIdx? (fun e => decide (e = parent)) with
  | some i => (i : Int)
  | none => -1

/-- Whether a log record's changed-path list contains the given path string
(the inner `p._ === commit._` scan of `openDiffCmd`). -/
def entryHasPath (pathStr : String) (e : ISvnLogEntry) : Bool :=
  e.paths.any (fun p => p.pathStr == pathStr)

/-- Embedding of the predecessor-resolution core of
`RepoLogProvider.openDiffCmd` (`src/historyView/common.ts` lines 420-455):
scan the cached entries after the current commit's position for the first
record touching the same path; if none, issue a 2-result log fetch anchored
at the current revision and accept the second result iff exactly two results
return. The result pairs the found predecessor (or `none`, the "Cannot find
previous commit" outcome) with the number of backend log calls made; the
fallback fetch is not wrapped in `try`, so its error propagates (`.error`).
The path normalizer applied to the fetch target is external and modelled as
the identity on the path string. -/
def openDiffPrevRev (backend : LogBackend) (entries : List ISvnLogEntry)
    (parent : ISvnLogEntry) (pathStr : String) :
    Except Unit (Option ISvnLogEntry × Nat) :=
  match (entries.drop (jsFindIndexEq entries parent + 1).toNat).find? (entryHasPath pathStr) with
  | some prev => .ok (some prev, 0)
  | none =>
    match backend parent.revision "1" 2 pathStr with
    | .error e => .error e
    | .ok revs => if revs.length = 2 then .ok (revs.get? 1, 1) else .ok (none, 1)

/-- Character-level splitter for `jsSplitSlash`: the second argument
accumulates the current piece in reverse. -/
def splitSlashAux : List Char → List Char → List String
  | [], acc => [String.mk acc.reverse]
  | c :: rest, acc =>
    if c = '/' then String.mk acc.reverse :: splitSlashAux rest []
    else splitSlashAux rest (c :: acc)

/-- Model of JavaScript `s.split("/")`: split on every slash, keeping empty
pieces (`""` gives `[""]`, `"/"` gives `["", ""]`). -/
def jsSplitSlash (s : String) : List String := splitSlashAux s.data []

/-- Path components in reverse order: `path.split("/").reverse()` from
`findSimilarPath`. -/
def splitSlashRev (s : String) : List String := (jsSplitSlash s).reverse

/-- The trailing-component similarity count of `findSimilarPath`
(`src/historyView/itemLogProvider.ts` lines 50-58): both argument lists are
reversed component lists; count consecutive equal components until the first
mismatch or until either list is exhausted. -/
def simLevel : List String → List String → Nat
  | p :: ps, w :: ws => if p = w then simLevel ps ws + 1 else 0
  | _, _ => 0

/-- The accumulator loop of `findSimilarPath` (lines 49-63): track the best
similarity level seen so far and its path, updating only on a strict
improvement. -/
def findSimilarLoop (wcComponents : List String) :
    List ISvnLogEntryPath → Nat → String → String
  | [], _, fullPath => fullPath
  | p :: rest, maxSimLevel, fullPath =>
    let pSimLevel := simLevel (splitSlashRev p.pathStr) wcComponents
    if maxSimLevel < pSimLevel then findSimilarLoop wcComponents rest pSimLevel p.pathStr
    else findSimilarLoop wcComponents rest maxSimLevel fullPath

/-- Embedding of `findSimilarPath(wcRemoteUri, commit, pn)` from
`src/historyView/itemLogProvider.ts` lines 38-65, restricted to its pure
core: the working-copy path and a commit's changed-path list go in, and the
selected path string comes out (`none` models the thrown error on a commit
with no paths; the final `pn.parse` is the external path normalizer and is
dropped). -/
def findSimilarPath (wcPath : String) (commitPaths : List ISvnLogEntryPath) :
    Option String :=
  match commitPaths with
  | [] => none
  | p0 :: _ => some (findSimilarLoop (splitSlashRev wcPath) commitPaths 0 p0.pathStr)

/-- Trailing-similarity score of one changed path against the working-copy
path (helper for stating the `findSimilarPath` claims). -/
def pathScore (wcPath : String) (p : ISvnLogEntryPath) : Nat :=
  simLevel (splitSlashRev p.pathStr) (splitSlashRev wcPath)

/-- Numeric value of a record's revision string (`0` on a non-numeral, which
the pagination preconditions exclude). -/
def revInt (e : ISvnLogEntry) : Int := (jsParseInt e.revision).getD 0

/-- All records of a list carry numeral revisions. -/
def numericRevs (l : List ISvnLogEntry) : Prop :=
  ∀ e ∈ l, (jsParseInt e.revision).isSome = true

/-- Adjacent records have strictly decreasing revision numbers (newest
first). -/
def revsStrictDecr (l : List ISvnLogEntry) : Prop :=
  l.Chain' (fun a b => revInt b < revInt a)

/-- The backend precondition of the pagination-monotonicity claim: every
successfully returned page is newest-first with strictly decreasing numeral
revisions, all no greater than the requested starting revision whenever that
revision is numeric. -/
def backendOK (backend : LogBackend) : Prop :=
  ∀ rfrom rto lim tgt page, backend rfrom rto lim tgt = .ok page →
    numericRevs page ∧ revsStrictDecr page ∧
      ∀ v, jsParseInt rfrom = some v → ∀ e ∈ page, revInt e ≤ v

/-- Modelled from the spec's words, for comparison with the code's
`fetchMoreRfrom`: the claimed continuation revision is one less than the
revision of the oldest cached record with `fromMerge = false` (`none` when
there is no such record or its revision is not a numeral). -/
def claimRfromNonMerge (cached : ICachedLog) : Option String :=
  match (cached.entries.filter (fun e => !e.fromMerge)).getLast? with
  | none => none
  | some e => (jsParseInt e.revision).map (fun v => intToString (v - 1))

/-- A log record with the given revision and changed paths (authors, dates
and messages are irrelevant to the claims and held constant). -/
def mkLogEntryP (rev : String) (ps : List ISvnLogEntryPath) : ISvnLogEntry :=
  { revision := rev, author := "a", date := "d", msg := "m", paths := ps }

/-- A pathless log record with the given revision. -/
def mkLogEntry (rev : String) : ISvnLogEntry := mkLogEntryP rev []

/-- A fresh cache entry starting from `HEAD` (concrete test state). -/
def headEntry : ICachedLog :=
  { entries := [], svnTarget := "t", isComplete := false,
    persisted := { commitFrom := "HEAD" } }

/-- A cache entry whose literal last record is a merge-derived sub-entry
with an older revision than the preceding direct record (the shape
`parseSvnLog` produces when it splices merge sub-entries after their
parent). -/
def mergeTailEntry : ICachedLog :=
  { entries := [mkLogEntry "10", { mkLogEntry "3" with fromMerge := true }],
    svnTarget := "t", isComplete := false, persisted := { commitFrom := "HEAD" } }

/-- A backend that throws on every log call. -/
def errorBackend : LogBackend := fun _ _ _ _ => .error ()

/-- A backend that returns an empty page on every log call. -/
def emptyPageBackend : LogBackend := fun _ _ _ _ => .ok []

/-- An already-complete concrete cache entry. -/
def completeEntry : ICachedLog := { headEntry with isComplete := true }

/-- Backend for the completion counterexample: one short page from `HEAD`,
then a full page of strictly older revisions. -/
def pagingBackend : LogBackend := fun rfrom _ _ _ =>
  if rfrom = "HEAD" then .ok [mkLogEntry "6"]
  else if rfrom = "5" then .ok [mkLogEntry "5", mkLogEntry "4"]
  else .ok []

/-- State after one `fetchMore` against `pagingBackend` with page size 2. -/
def pagingAfterOne : ICachedLog :=
  { headEntry with entries := [mkLogEntry "6"], isComplete := true }

/-- State after a second `fetchMore` against `pagingBackend`. -/
def pagingAfterTwo : ICachedLog :=
  { headEntry with
    entries := [mkLogEntry "6", mkLogEntry "5", mkLogEntry "4"]
    isComplete := true }

/-- Backend realizing the spec's pagination scenario: pages `[10, 9]`,
`[8, 7]`, `[6]` for the successive requests `HEAD`, `8`, `6`. -/
def scenarioBackend : LogBackend := fun rfrom _ _ _ =>
  if rfrom = "HEAD" then .ok [mkLogEntry "10", mkLogEntry "9"]
  else if rfrom = "8" then .ok [mkLogEntry "8", mkLogEntry "7"]
  else if rfrom = "6" then .ok [mkLogEntry "6"]
  else .ok []

/-- Final state of the spec's pagination scenario. -/
def scenarioFinal : ICachedLog :=
  { headEntry with
    entries := [mkLogEntry "10", mkLogEntry "9", mkLogEntry "8",
      mkLogEntry "7", mkLogEntry "6"],
    isComplete := true }

/-- The changed path used by the diff-target scenario. -/
def diffPathP : ISvnLogEntryPath := { pathStr := "p", action := "M" }

/-- Cached entries for the diff-target scenario: the path `"p"` is touched
at positions 3 and 7 (newest first). -/
def diffEntries : List ISvnLogEntry :=
  [mkLogEntryP "100" [], mkLogEntryP "99" [], mkLogEntryP "98" [],
   mkLogEntryP "97" [diffPathP], mkLogEntryP "96" [], mkLogEntryP "95" [],
   mkLogEntryP "94" [], mkLogEntryP "93" [diffPathP]]

/-- A commit record of the blame listing (`e.commit` in `ISvnBlameEntry`):
author, date (kept as its string form) and revision string. -/
structure ISvnBlameCommit where
  author : String
  date : String
  revision : String
deriving DecidableEq

/-- One line of `svn blame` output as `transformBlames` consumes it: a
1-based line number and an optional commit (absent on uncommitted local
changes). The line number arrives as an integer (the blame parser has
already applied `parseInt`, and re-parsing an integer is the identity). -/
structure ISvnBlameEntry where
  lineNumber : Nat
  commit : Option ISvnBlameCommit
deriving DecidableEq

/-- The converted commit payload of a blame range (revision parsed to a
number; a non-numeral revision is modelled as `0`, which the claims never
exercise). -/
structure IBlameCommit where
  author : String
  date : String
  revision : Int
deriving DecidableEq

/-- One merged blame range (`IBlameRange` in `gutterBlame.ts`): a half-open,
zero-based line interval and an optional converted commit. -/
structure IBlameRange where
  lineStart : Nat
  lineEnd : Nat
  commit : Option IBlameCommit
deriving DecidableEq

/-- The `convert` closure of `transformBlames` (lines 67-82 of
`gutterBlame.ts`): close a range at the given entry's line number and carry
its converted commit. -/
def convertBlame (lineStart : Nat) (e : ISvnBlameEntry) : IBlameRange :=
  { lineStart := lineStart
    lineEnd := e.lineNumber
    commit := e.commit.map (fun c =>
      { author := c.author, date := c.date, revision := (jsParseInt c.revision).getD 0 }) }

/-- The run-equivalence test of `transformBlames` (the condition on lines
84-91 of `gutterBlame.ts`, un-negated): two blame lines continue one run iff
both are uncommitted, or both are committed with equal revision strings. -/
def sameBlameRun (a b : ISvnBlameEntry) : Bool :=
  match a.commit, b.commit with
  | none, none => true
  | some ca, some cb => ca.revision == cb.revision
  | _, _ => false

/-- The `for (const blame of input)` loop of `transformBlames` (lines 83-97),
carrying the mutable `lastBlame`, `lineStart` and `mergedBlames` as
arguments; after the loop the final range is pushed. -/
def transformBlamesLoop :
    List ISvnBlameEntry → ISvnBlameEntry → Nat → List IBlameRange → List IBlameRange
  | [], lastBlame, lineStart, acc => acc ++ [convertBlame lineStart lastBlame]
  | b :: rest, lastBlame, lineStart, acc =>
    if sameBlameRun lastBlame b then
      transformBlamesLoop rest b lineStart acc
    else
      let r := convertBlame lineStart lastBlame
      transformBlamesLoop rest b r.lineEnd (acc ++ [r])

/-- Embedding of `transformBlames(input)` from `src/historyView/gutterBlame.ts`
lines 60-99: run-length-encode a per-line blame listing into merged ranges.
The loop starts with `lastBlame = input[0]`, `lineStart = 0` and iterates
over the whole input. -/
def transformBlames (input : List ISvnBlameEntry) : List IBlameRange :=
  match input with
  | [] => []
  | e :: _ => transformBlamesLoop input e 0 []

/-- Accumulator-free form of the `transformBlames` loop (proof helper):
`runsFrom last s rest` is the list of ranges produced from pending run start
`s`, previous line `last` and remaining input `rest`. -/
def runsFrom : ISvnBlameEntry → Nat → List ISvnBlameEntry → List IBlameRange
  | last, lineStart, [] => [convertBlame lineStart last]
  | last, lineStart, b :: rest =>
    if sameBlameRun last b then runsFrom b lineStart rest
    else convertBlame lineStart last :: runsFrom b (convertBlame lineStart last).lineEnd rest

/-- Equivalence class of a blame line: `none` for uncommitted, otherwise the
committed revision string. -/
def entryCls (e : ISvnBlameEntry) : Option String := e.commit.map (fun c => c.revision)

/-- Equivalence class recorded on an output range: `none` for uncommitted,
otherwise the parsed revision number. -/
def rangeCls (r : IBlameRange) : Option Int := r.commit.map (fun c => c.revision)

/-- The ranges `rs` tile the half-open interval from `s` to `e`: successive
`lineStart`s continue exactly where the previous range ended, every range is
non-empty, and the last range ends at `e`. -/
def chainFrom : Nat → List IBlameRange → Nat → Prop
  | s, [], e => s = e
  | s, r :: rest, e => r.lineStart = s ∧ s < r.lineEnd ∧ chainFrom r.lineEnd rest e

/-- Each following entry's line number is one more than its predecessor's. -/
def consecutiveLines : ISvnBlameEntry → List ISvnBlameEntry → Prop
  | _, [] => True
  | a, b :: rest => b.lineNumber = a.lineNumber + 1 ∧ consecutiveLines b rest

/-- The committed blame line used by the blame scenario. -/
def blameCommit5 : ISvnBlameCommit := { author := "a", date := "d", revision := "5" }

/-- The blame scenario input: lines 1-5 at revision `"5"`, lines 6-10
uncommitted, lines 11-15 at revision `"5"` again. -/
def blameScenarioInput : List ISvnBlameEntry :=
  [{ lineNumber := 1, commit := some blameCommit5 },
   { lineNumber := 2, commit := some blameCommit5 },
   { lineNumber := 3, commit := some blameCommit5 },
   { lineNumber := 4, commit := some blameCommit5 },
   { lineNumber := 5, commit := some blameCommit5 },
   { lineNumber := 6, commit := none },
   { lineNumber := 7, commit := none },
   { lineNumber := 8, commit := none },
   { lineNumber := 9, commit := none },
   { lineNumber := 10, commit := none },
   { lineNumber := 11, commit := some blameCommit5 },
   { lineNumber := 12, commit := some blameCommit5 },
   { lineNumber := 13, commit := some blameCommit5 },
   { lineNumber := 14, commit := some blameCommit5 },
   { lineNumber := 15, commit := some blameCommit5 }]

/-- Changed paths for the similar-path witness: the first and third share
the two trailing components of the working copy path
`branches/dev/src/util.ts`; the first occurrence must win the tie. -/
def simScenarioPaths : List ISvnLogEntryPath :=
  [{ pathStr := "trunk/src/util.ts", action := "M" },
   { pathStr := "trunk/src/other.ts", action := "M" },
   { pathStr := "tags/v1/src/util.ts", action := "A" }]

/-- The three ranges the blame scenario must produce. -/
def blameScenarioExpected : List IBlameRange :=
  [{ lineStart := 0, lineEnd := 5, commit := some { author := "a", date := "d", revision := 5 } },
   { lineStart := 5, lineEnd := 10, commit := none },
   { lineStart := 10, lineEnd := 15, commit := some { author := "a", date := "d", revision := 5 } }]

theorem digitChar_isDigit (d : Nat) (hd : d < 10) : (digitChar d).isDigit = true := by
  interval_cases d <;> decide

theorem digitChar_toNat (d : Nat) (hd : d < 10) : (digitChar d).toNat = 48 + d := by
  interval_cases d <;> decide

theorem decValue_append (cs : List Char) (c : Char) :
    decValue (cs ++ [c]) = decValue cs * 10 + ((c.toNat : Int) - 48) := by
  simp [decValue, List.foldl_append]

theorem natCharsAux_spec : ∀ fuel n : Nat, n < fuel →
    natCharsAux fuel n ≠ [] ∧ (∀ c ∈ natCharsAux fuel n, c.isDigit = true) ∧
      decValue (natCharsAux fuel n) = (n : Int) := by
  intro fuel
  induction fuel with
  | zero => intro n hn; omega
  | succ fuel ih =>
    intro n hn
    by_cases h10 : n < 10
    · refine ⟨by simp [natCharsAux, h10], ?_, ?_⟩
      · intro c hc
        simp [natCharsAux, h10] at hc
        subst hc
        exact digitChar_isDigit n h10
      · rw [show natCharsAux (fuel + 1) n = [digitChar n] from by simp [natCharsAux, h10]]
        simp only [decValue, List.foldl_cons, List.foldl_nil, digitChar_toNat n h10]
        push_cast
        omega
    · have hdiv : n / 10 < fuel := by
        have h1 : n / 10 < n := Nat.div_lt_self (by omega) (by omega)
        omega
      obtain ⟨h1, h2, h3⟩ := ih (n / 10) hdiv
      refine ⟨by simp [natCharsAux, h10], ?_, ?_⟩
      · intro c hc
        simp only [natCharsAux, h10, if_false, List.mem_append, List.mem_singleton] at hc
        rcases hc with hc | hc
        · exact h2 c hc
        · subst hc
          exact digitChar_isDigit _ (Nat.mod_lt n (by omega))
      · simp only [natCharsAux, h10, if_false]
        rw [decValue_append, h3, digitChar_toNat _ (Nat.mod_lt n (by omega))]
        have := Nat.div_add_mod n 10
        push_cast
        omega

theorem natChars_spec (n : Nat) :
    natChars n ≠ [] ∧ (∀ c ∈ natChars n, c.isDigit = true) ∧
      decValue (natChars n) = (n : Int) :=
  natCharsAux_spec (n + 1) n (by omega)

theorem takeWhile_eq_self_of_all {α : Type} (p : α → Bool) :
    ∀ l : List α, (∀ c ∈ l, p c = true) → l.takeWhile p = l := by
  intro l
  induction l with
  | nil => simp
  | cons a t ih =>
    intro h
    rw [List.takeWhile_cons, if_pos (h a (by simp)), ih (fun c hc => h c (by simp [hc]))]

theorem parseDigitsLeading_all_digits (cs : List Char) (hne : cs ≠ [])
    (hd : ∀ c ∈ cs, c.isDigit = true) :
    parseDigitsLeading cs = some (decValue cs) := by
  unfold parseDigitsLeading
  rw [takeWhile_eq_self_of_all _ cs hd]
  simp [hne]

theorem head?_ne_of_all_digits (cs : List Char) (hd : ∀ c ∈ cs, c.isDigit = true)
    (ch : Char) (hch : ch.isDigit = false) : cs.head? ≠ some ch := by
  cases cs with
  | nil => simp
  | cons a t =>
    intro h
    rw [show (a :: t).head? = some a from rfl] at h
    injection h with h
    subst h
    rw [hd a (by simp)] at hch
    cases hch

theorem jsParseIntChars_all_digits (cs : List Char) (hne : cs ≠ [])
    (hd : ∀ c ∈ cs, c.isDigit = true) :
    jsParseIntChars cs = some (decValue cs) := by
  unfold jsParseIntChars
  rw [if_neg (head?_ne_of_all_digits cs hd '-' (by decide)),
    if_neg (head?_ne_of_all_digits cs hd '+' (by decide)),
    parseDigitsLeading_all_digits cs hne hd]

/-- Round trip: parsing the decimal rendering of an integer recovers it. -/
theorem jsParseInt_intToString (n : Int) : jsParseInt (intToString n) = some n := by
  unfold jsParseInt intToString intChars
  by_cases hn : n < 0
  · obtain ⟨h1, h2, h3⟩ := natChars_spec (-n).toNat
    simp only [hn, if_true]
    show jsParseIntChars ('-' :: natChars (-n).toNat) = some n
    unfold jsParseIntChars
    rw [if_pos (by simp)]
    simp only [List.tail_cons]
    rw [parseDigitsLeading_all_digits _ h1 h2, Option.map_some', h3]
    have : ((-n).toNat : Int) = -n := Int.toNat_of_nonneg (by omega)
    rw [this]
    simp
  · obtain ⟨h1, h2, h3⟩ := natChars_spec n.toNat
    simp only [hn, if_false]
    show jsParseIntChars (natChars n.toNat) = some n
    rw [jsParseIntChars_all_digits _ h1 h2, h3, Int.toNat_of_nonneg (by omega)]

theorem lastRevision?_ne_nil (l : List ISvnLogEntry) (r : String)
    (h : lastRevision? l = some r) : l.length ≠ 0 := by
  intro hl
  rw [List.length_eq_zero] at hl
  subst hl
  simp [lastRevision?] at h

/-- C1: the completion predicate `needFetch(cached, fetched, limit)` returns
`false` (entry complete) exactly when the last cached record's revision is
`"1"`, or the fetched page is empty, or the last fetched record's revision is
`"1"`, or the fetched page is strictly shorter than the requested limit; in
every other case it returns `true`. -/
theorem needFetch_false_iff (cached fetched : List ISvnLogEntry) (limit : Int) :
    needFetch cached fetched limit = false ↔
      (lastRevision? cached = some "1" ∨ fetched = [] ∨
        lastRevision? fetched = some "1" ∨ (fetched.length : Int) < limit) := by
  unfold needFetch
  split_ifs with h1 h2 h3
  · rcases h1 with ⟨-, h1⟩
    simp [h1]
  · rcases h2 with h2 | h2
    · rw [List.length_eq_zero] at h2
      simp [h2]
    · simp [h2]
  · simp [h3]
  · push_neg at h1 h2
    constructor
    · intro h; cases h
    · intro h
      rcases h with h | h | h | h
      · exact absurd h (h1 (lastRevision?_ne_nil cached _ h))
      · exact absurd (by rw [h]; rfl) h2.1
      · exact absurd h h2.2
      · exact absurd h h3

theorem needFetch_empty_fetched (cached : List ISvnLogEntry) (limit : Int) :
    needFetch cached [] limit = false := by
  unfold needFetch
  split_ifs with h1 h2 h3
  · rfl
  · rfl
  · rfl
  · exact absurd (Or.inl rfl) h2

/-- C7: when the backend log call made by `fetchMore` fails, the error is not
propagated: the call returns normally (one backend call made), the entry's
`entries` list is unchanged, `isComplete` is set to `true`, and the outcome
is exactly the outcome of a backend that returns zero records. -/
theorem fetchMore_backend_failure (cfg : Option String) (backend : LogBackend)
    (cached : ICachedLog) (limit : Int)
    (hl : getLimit cfg = .ok limit)
    (hb : backend (fetchMoreRfrom cached) "1" limit cached.svnTarget = .error ()) :
    fetchMore cfg backend cached = .ok ({ cached with isComplete := true }, 1) ∧
      fetchMore cfg backend cached =
        fetchMore cfg (fun _ _ _ _ => .ok []) cached := by
  constructor
  · simp [fetchMore, hl, hb, needFetch_empty_fetched]
  · simp [fetchMore, hl, hb]

/-- Witness for `fetchMore_backend_failure`: a concrete entry and the
always-throwing backend. -/
theorem fetchMore_backend_failure_witness :
    getLimit none = .ok 50 ∧
    errorBackend (fetchMoreRfrom headEntry) "1" 50 headEntry.svnTarget = .error () ∧
    fetchMore none errorBackend headEntry =
      .ok ({ headEntry with isComplete := true }, 1) :=
  ⟨rfl, rfl, (fetchMore_backend_failure none errorBackend headEntry 50 rfl rfl).1⟩

/-- C10: `fetchMore` never lowers the completeness flag: when `isComplete`
is `true` before the call it is still `true` after it, whatever the backend
returns; the per-entry reset performed by an explicit refresh is what sets it
back to `false`. -/
theorem fetchMore_isComplete_monotone (cfg : Option String) (backend : LogBackend)
    (cached c' : ICachedLog) (k : Nat)
    (h : fetchMore cfg backend cached = .ok (c', k))
    (hc : cached.isComplete = true) :
    c'.isComplete = true ∧ (refreshReset cached).isComplete = false := by
  refine ⟨?_, rfl⟩
  unfold fetchMore at h
  cases hg : getLimit cfg with
  | error e => rw [hg] at h; cases h
  | ok limit =>
    rw [hg] at h
    injection h with h
    have h' := congrArg Prod.fst h
    simp only at h'
    rw [← h']
    show (if !needFetch _ _ _ then true else cached.isComplete) = true
    split_ifs with hnf
    · rfl
    · exact hc

/-- Witness for `fetchMore_isComplete_monotone`: a concrete already-complete
entry and the empty-page backend. -/
theorem fetchMore_isComplete_monotone_witness :
    fetchMore none emptyPageBackend completeEntry = .ok (completeEntry, 1) ∧
    completeEntry.isComplete = true ∧
    (refreshReset completeEntry).isComplete = false :=
  ⟨rfl, rfl,
    (fetchMore_isComplete_monotone none emptyPageBackend completeEntry
      completeEntry 1 rfl rfl).2⟩

/-- C9 counterexample: the configured value `"5x"` is not a positive integer
(nor any integer), yet `getLimit` returns `5` instead of throwing, because
JavaScript `parseInt` keeps the maximal leading digit run and silently
discards the rest; the claimed fail-fast behaviour does not hold for such
values. -/
theorem getLimit_counterexample : getLimit (some "5x") = .ok 5 := rfl

/-- C9 amended: `getLimit` returns 50 when `log.length` is unset; a set value
is evaluated by `parseInt` (maximal leading decimal run), the call throws
exactly when that evaluation is `NaN` or non-positive, and every successful
result is positive — but a value with a positive leading integer run followed
by trailing garbage is accepted as that run rather than rejected. -/
theorem getLimit_amended :
    getLimit none = .ok 50 ∧
    (∀ s v, jsParseInt s = some v → 0 < v → getLimit (some s) = .ok v) ∧
    (∀ s, s ≠ "" → jsParseInt s = none →
      getLimit (some s) = .error "Invalid log.length setting value") ∧
    (∀ s v, s ≠ "" → jsParseInt s = some v → v ≤ 0 →
      getLimit (some s) = .error "Invalid log.length setting value") ∧
    (∀ s v, getLimit (some s) = .ok v → 0 < v) := by
  refine ⟨rfl, ?_, ?_, ?_, ?_⟩
  · intro s v hv hpos
    have hs : s ≠ "" := by
      intro h
      subst h
      rw [show jsParseInt "" = none from rfl] at hv
      cases hv
    unfold getLimit
    simp only [if_neg hs]
    rw [hv]
    simp only [if_neg (show ¬v ≤ 0 by omega)]
  · intro s hne hnone
    unfold getLimit
    simp only [if_neg hne]
    rw [hnone]
  · intro s v hne hv hle
    unfold getLimit
    simp only [if_neg hne]
    rw [hv]
    simp only [if_pos hle]
  · intro s v h
    by_cases hse : s = ""
    · subst hse
      have h50 : getLimit (some "") = .ok 50 := rfl
      rw [h] at h50
      injection h50 with h50
      omega
    · unfold getLimit at h
      simp only [if_neg hse] at h
      cases hp : jsParseInt s with
      | none => rw [hp] at h; cases h
      | some w =>
        rw [hp] at h
        by_cases hw : w ≤ 0
        · simp only [if_pos hw] at h
          cases h
        · simp only [if_neg hw, Except.ok.injEq] at h
          omega

/-- Witness for `getLimit_amended` at the values `"7"`, `"abc"` and `"0"`. -/
theorem getLimit_amended_witness :
    (jsParseInt "7" = some 7 ∧ 0 < (7 : Int) ∧ getLimit (some "7") = .ok 7) ∧
    ("abc" ≠ "" ∧ jsParseInt "abc" = none ∧
      getLimit (some "abc") = .error "Invalid log.length setting value") ∧
    ("0" ≠ "" ∧ jsParseInt "0" = some 0 ∧ (0 : Int) ≤ 0 ∧
      getLimit (some "0") = .error "Invalid log.length setting value") :=
  ⟨⟨rfl, by omega, getLimit_amended.2.1 "7" 7 rfl (by omega)⟩,
   ⟨by decide, rfl, getLimit_amended.2.2.1 "abc" (by decide) rfl⟩,
   ⟨by decide, rfl, by omega, getLimit_amended.2.2.2.1 "0" 0 (by decide) rfl (by omega)⟩⟩

/-- C5 counterexample: in a cache whose literal last record is a merge-derived
sub-entry (`fromMerge = true`, revision `"3"`) following a direct record at
revision `"10"`, `fetchMore` continues from `"2"` (literal last record minus
one) and not from `"9"` (oldest non-merge record minus one) as the claimed
merge exclusion demands. -/
theorem fetchMoreRfrom_merge_counterexample :
    fetchMoreRfrom mergeTailEntry = "2" ∧
    claimRfromNonMerge mergeTailEntry = some "9" ∧
    fetchMoreRfrom mergeTailEntry ≠ "9" :=
  ⟨rfl, rfl, by decide⟩

/-- C5 amended: merge-derived records are not excluded from
pagination-progress accounting: `fetchMore` derives its continuation revision
from the literal last record of `entries` whatever its `fromMerge` flag
(and from `persisted.commitFrom` when `entries` is empty); `needFetch`
likewise examines literal last records (see the C1 theorem). -/
theorem fetchMoreRfrom_uses_literal_last (cached : ICachedLog) :
    (cached.entries = [] → fetchMoreRfrom cached = cached.persisted.commitFrom) ∧
    (∀ e v, cached.entries.getLast? = some e → jsParseInt e.revision = some v →
      fetchMoreRfrom cached = intToString (v - 1)) := by
  constructor
  · intro h
    simp only [fetchMoreRfrom, h]
    rfl
  · intro e v hl hv
    simp only [fetchMoreRfrom, hl, hv]

/-- Witness for `fetchMoreRfrom_uses_literal_last` at the merge-tailed
entry. -/
theorem fetchMoreRfrom_uses_literal_last_witness :
    mergeTailEntry.entries.getLast? = some { mkLogEntry "3" with fromMerge := true } ∧
    jsParseInt ({ mkLogEntry "3" with fromMerge := true } : ISvnLogEntry).revision = some 3 ∧
    fetchMoreRfrom mergeTailEntry = intToString 2 :=
  ⟨rfl, rfl,
    (fetchMoreRfrom_uses_literal_last mergeTailEntry).2
      { mkLogEntry "3" with fromMerge := true } 3 rfl rfl⟩

/-- C3 counterexample: a first `fetchMore` (page size 2, one-record page)
marks the entry complete; a second `fetchMore` invocation nevertheless
performs a backend log call (call count 1, not 0) and extends `entries` with
what that call returns. -/
theorem fetchMore_complete_counterexample :
    fetchMore (some "2") pagingBackend headEntry = .ok (pagingAfterOne, 1) ∧
    pagingAfterOne.isComplete = true ∧
    fetchMore (some "2") pagingBackend pagingAfterOne = .ok (pagingAfterTwo, 1) ∧
    pagingAfterTwo.entries ≠ pagingAfterOne.entries :=
  ⟨rfl, rfl, rfl, by decide⟩

/-- C3 amended: `fetchMore` performs exactly one backend log call on every
invocation, also when the entry is already complete; `isComplete` then stays
`true`, and the fetched page is appended to `entries` (so `entries` is
unchanged precisely when the backend returns no records or fails). -/
theorem fetchMore_complete_still_calls (cfg : Option String) (backend : LogBackend)
    (cached c' : ICachedLog) (k : Nat) (limit : Int)
    (hl : getLimit cfg = .ok limit)
    (hc : cached.isComplete = true)
    (h : fetchMore cfg backend cached = .ok (c', k)) :
    k = 1 ∧ c'.isComplete = true ∧
      (∀ page, backend (fetchMoreRfrom cached) "1" limit cached.svnTarget = .ok page →
        c'.entries = cached.entries ++ page) := by
  unfold fetchMore at h
  rw [hl] at h
  simp only [Except.ok.injEq, Prod.mk.injEq] at h
  obtain ⟨h1, h2⟩ := h
  subst h2
  refine ⟨rfl, ?_, ?_⟩
  · rw [← h1]
    show (if !needFetch _ _ _ then true else cached.isComplete) = true
    split_ifs with hnf
    · rfl
    · exact hc
  · intro page hp
    rw [← h1]
    show (cached.entries ++ _) = cached.entries ++ page
    rw [hp]

/-- Witness for `fetchMore_complete_still_calls` at a concrete
already-complete state. -/
theorem fetchMore_complete_still_calls_witness :
    getLimit (some "2") = .ok 2 ∧ pagingAfterOne.isComplete = true ∧
    fetchMore (some "2") pagingBackend pagingAfterOne = .ok (pagingAfterTwo, 1) ∧
    (1 : Nat) = 1 ∧ pagingAfterTwo.isComplete = true ∧
    pagingAfterTwo.entries = pagingAfterOne.entries ++ [mkLogEntry "5", mkLogEntry "4"] := by
  have h := fetchMore_complete_still_calls (some "2") pagingBackend pagingAfterOne
    pagingAfterTwo 1 2 rfl rfl rfl
  exact ⟨rfl, rfl, rfl, h.1, h.2.1, h.2.2 [mkLogEntry "5", mkLogEntry "4"] rfl⟩

theorem fetchMore_preserves_decr (cfg : Option String) (backend : LogBackend)
    (cached c' : ICachedLog) (k : Nat) (limit : Int)
    (hB : backendOK backend) (hl : getLimit cfg = .ok limit)
    (h1 : numericRevs cached.entries) (h2 : revsStrictDecr cached.entries)
    (h : fetchMore cfg backend cached = .ok (c', k)) :
    numericRevs c'.entries ∧ revsStrictDecr c'.entries := by
  unfold fetchMore at h
  rw [hl] at h
  simp only [Except.ok.injEq, Prod.mk.injEq] at h
  obtain ⟨hc', -⟩ := h
  cases hb : backend (fetchMoreRfrom cached) "1" limit cached.svnTarget with
  | error e =>
    rw [hb] at hc'
    rw [← hc']
    constructor
    · show numericRevs (cached.entries ++ [])
      rw [List.append_nil]
      exact h1
    · show revsStrictDecr (cached.entries ++ [])
      rw [List.append_nil]
      exact h2
  | ok page =>
    rw [hb] at hc'
    obtain ⟨hB1, hB2, hB3⟩ := hB _ _ _ _ _ hb
    rw [← hc']
    constructor
    · show numericRevs (cached.entries ++ page)
      intro e he
      rcases List.mem_append.mp he with he | he
      · exact h1 e he
      · exact hB1 e he
    · show revsStrictDecr (cached.entries ++ page)
      unfold revsStrictDecr
      rw [List.chain'_append]
      refine ⟨h2, hB2, ?_⟩
      intro x hx y hy
      rw [Option.mem_def] at hx hy
      have hxmem : x ∈ cached.entries := List.mem_of_getLast?_eq_some hx
      obtain ⟨vx, hvx⟩ := Option.isSome_iff_exists.mp (h1 x hxmem)
      have hrfrom : fetchMoreRfrom cached = intToString (vx - 1) := by
        simp only [fetchMoreRfrom, hx, hvx]
      have hbound : revInt y ≤ vx - 1 := by
        refine hB3 (vx - 1) ?_ y (List.mem_of_mem_head? (Option.mem_def.mpr hy))
        rw [hrfrom]
        exact jsParseInt_intToString _
      have hx' : revInt x = vx := by simp [revInt, hvx]
      show revInt y < revInt x
      omega

theorem fetchMoreIter_preserves_decr (cfg : Option String) (backend : LogBackend)
    (hB : backendOK backend) :
    ∀ n (cached c' : ICachedLog), numericRevs cached.entries → revsStrictDecr cached.entries →
      fetchMoreIter cfg backend n cached = .ok c' →
      numericRevs c'.entries ∧ revsStrictDecr c'.entries := by
  intro n
  induction n with
  | zero =>
    intro cached c' h1 h2 h
    injection h with h
    subst h
    exact ⟨h1, h2⟩
  | succ n ih =>
    intro cached c' h1 h2 h
    unfold fetchMoreIter at h
    cases hf : fetchMore cfg backend cached with
    | error e => rw [hf] at h; cases h
    | ok p =>
      obtain ⟨c'', k⟩ := p
      rw [hf] at h
      cases hg : getLimit cfg with
      | error e =>
        unfold fetchMore at hf
        rw [hg] at hf
        cases hf
      | ok limit =>
        have hstep := fetchMore_preserves_decr cfg backend cached c'' k limit hB hg h1 h2 hf
        exact ih c'' c' hstep.1 hstep.2 h

/-- C4: under the precondition that every backend page is newest-first with
strictly decreasing numeral revisions bounded by the requested (numeric)
starting revision, any sequence of `fetchMore` calls on one entry keeps
`entries` strictly decreasing in revision number with no duplicate revision
across calls; each call continues from one less than the literal last
(oldest) fetched revision, or from `persisted.commitFrom` when `entries` is
empty. -/
theorem fetchMore_pagination_monotone (cfg : Option String) (backend : LogBackend)
    (n : Nat) (cached c' : ICachedLog)
    (hB : backendOK backend)
    (h1 : numericRevs cached.entries) (h2 : revsStrictDecr cached.entries)
    (h : fetchMoreIter cfg backend n cached = .ok c') :
    c'.entries.Pairwise (fun a b => revInt b < revInt a) ∧
      (c'.entries.map revInt).Nodup ∧
      (cached.entries = [] → fetchMoreRfrom cached = cached.persisted.commitFrom) ∧
      (∀ e v, cached.entries.getLast? = some e → jsParseInt e.revision = some v →
        fetchMoreRfrom cached = intToString (v - 1)) := by
  obtain ⟨hn, hd⟩ := fetchMoreIter_preserves_decr cfg backend hB n cached c' h1 h2 h
  have hpw : c'.entries.Pairwise (fun a b => revInt b < revInt a) := by
    haveI : IsTrans ISvnLogEntry (fun a b => revInt b < revInt a) :=
      ⟨fun a b c hab hbc => lt_trans hbc hab⟩
    exact List.chain'_iff_pairwise.mp hd
  refine ⟨hpw, ?_, ?_, ?_⟩
  · show (c'.entries.map revInt).Pairwise (· ≠ ·)
    rw [List.pairwise_map]
    exact hpw.imp (fun hab => ne_of_gt hab)
  · intro hnil
    simp only [fetchMoreRfrom, hnil]
    rfl
  · intro e v hl hv
    simp only [fetchMoreRfrom, hl, hv]

theorem scenarioBackend_ok : backendOK scenarioBackend := by
  intro rfrom rto lim tgt page h
  unfold scenarioBackend at h
  by_cases hh : rfrom = "HEAD"
  · rw [if_pos hh] at h
    injection h with h
    subst h
    refine ⟨?_, ?_, ?_⟩
    · intro e he
      simp only [List.mem_cons, List.not_mem_nil, or_false] at he
      rcases he with rfl | rfl <;> rfl
    · show List.Chain' _ [mkLogEntry "10", mkLogEntry "9"]
      rw [List.chain'_pair]
      decide
    · intro v hv
      subst hh
      rw [show jsParseInt "HEAD" = none from rfl] at hv
      cases hv
  · rw [if_neg hh] at h
    by_cases h8 : rfrom = "8"
    · rw [if_pos h8] at h
      injection h with h
      subst h
      refine ⟨?_, ?_, ?_⟩
      · intro e he
        simp only [List.mem_cons, List.not_mem_nil, or_false] at he
        rcases he with rfl | rfl <;> rfl
      · show List.Chain' _ [mkLogEntry "8", mkLogEntry "7"]
        rw [List.chain'_pair]
        decide
      · intro v hv
        subst h8
        rw [show jsParseInt "8" = some 8 from rfl] at hv
        injection hv with hv
        subst hv
        intro e he
        simp only [List.mem_cons, List.not_mem_nil, or_false] at he
        rcases he with rfl | rfl <;> decide
    · rw [if_neg h8] at h
      by_cases h6 : rfrom = "6"
      · rw [if_pos h6] at h
        injection h with h
        subst h
        refine ⟨?_, ?_, ?_⟩
        · intro e he
          simp only [List.mem_cons, List.not_mem_nil, or_false] at he
          subst he
          rfl
        · exact List.chain'_singleton _
        · intro v hv
          subst h6
          rw [show jsParseInt "6" = some 6 from rfl] at hv
          injection hv with hv
          subst hv
          intro e he
          simp only [List.mem_cons, List.not_mem_nil, or_false] at he
          subst he
          decide
      · rw [if_neg h6] at h
        injection h with h
        subst h
        refine ⟨?_, ?_, ?_⟩
        · intro e he
          cases he
        · exact List.chain'_nil
        · intro v hv e he
          cases he

/-- Witness for `fetchMore_pagination_monotone`: the spec's scenario, page
size 2 from `HEAD` with backend pages `[10, 9]`, `[8, 7]`, `[6]`; after
three calls `entries` is `[10, 9, 8, 7, 6]`, complete, strictly decreasing
and duplicate-free. -/
theorem fetchMore_pagination_monotone_witness :
    fetchMoreIter (some "2") scenarioBackend 3 headEntry = .ok scenarioFinal ∧
    scenarioFinal.isComplete = true ∧
    scenarioFinal.entries.map revInt = [10, 9, 8, 7, 6] ∧
    scenarioFinal.entries.Pairwise (fun a b => revInt b < revInt a) := by
  refine ⟨rfl, rfl, rfl, ?_⟩
  exact (fetchMore_pagination_monotone (some "2") scenarioBackend 3 headEntry scenarioFinal
    scenarioBackend_ok (by intro e he; cases he)
    (by show List.Chain' _ ([] : List ISvnLogEntry); exact List.chain'_nil) rfl).1

theorem get_drop_add {α : Type} (l : List α) (n i : Nat) (h : i < (l.drop n).length)
    (h2 : n + i < l.length) : (l.drop n).get ⟨i, h⟩ = l.get ⟨n + i, h2⟩ := by
  simp [List.get_drop']

theorem find?_eq_get_of_first {α : Type} (p : α → Bool) :
    ∀ (l : List α) (j : Nat) (hj : j < l.length),
      p (l.get ⟨j, hj⟩) = true →
      (∀ i (hi : i < l.length), i < j → p (l.get ⟨i, hi⟩) = false) →
      l.find? p = some (l.get ⟨j, hj⟩) := by
  intro l
  induction l with
  | nil => intro j hj _ _; exact absurd hj (by simp)
  | cons a t ih =>
    intro j hj hp hfirst
    cases j with
    | zero => exact List.find?_cons_of_pos _ hp
    | succ k =>
      have ha : p a = false := hfirst 0 (by simp) (by omega)
      rw [List.find?_cons_of_neg _ (by simp [ha])]
      exact ih k (by simpa using hj) hp
        (fun i hi hik => hfirst (i + 1) (by simpa using hi) (by omega))

/-- C6: diff-target resolution is two-tier. Tier 1: with the current commit
at position `pos` of the cached entries, the first (newest) strictly older
record whose path list contains the changed path is returned with zero
backend calls. Tier 2: only when no such cached record exists is one
2-result log fetch issued, anchored at the current revision and scoped to
the path; the second result is the predecessor iff exactly two results
return, otherwise the non-fatal `none` ("cannot find previous commit")
outcome is reported. -/
theorem openDiffPrevRev_two_tier (backend : LogBackend) (entries : List ISvnLogEntry)
    (parent : ISvnLogEntry) (pathStr : String) (pos : Nat)
    (hpos : entries.findIdx? (fun e => decide (e = parent)) = some pos) :
    (∀ j (hj : j < entries.length), pos < j →
      entryHasPath pathStr (entries.get ⟨j, hj⟩) = true →
      (∀ i (hi : i < entries.length), pos < i → i < j →
        entryHasPath pathStr (entries.get ⟨i, hi⟩) = false) →
      openDiffPrevRev backend entries parent pathStr =
        .ok (some (entries.get ⟨j, hj⟩), 0)) ∧
    ((∀ i (hi : i < entries.length), pos < i →
        entryHasPath pathStr (entries.get ⟨i, hi⟩) = false) →
      ∀ revs, backend parent.revision "1" 2 pathStr = .ok revs →
        openDiffPrevRev backend entries parent pathStr =
          .ok ((if revs.length = 2 then revs.get? 1 else none), 1)) := by
  have hstart : (jsFindIndexEq entries parent + 1).toNat = pos + 1 := by
    unfold jsFindIndexEq
    rw [hpos]
    show ((pos : Int) + 1).toNat = pos + 1
    omega
  constructor
  · intro j hj hpj hpathj hfirst
    unfold openDiffPrevRev
    rw [hstart]
    have hlen : j - (pos + 1) < (entries.drop (pos + 1)).length := by
      rw [List.length_drop]
      omega
    have hidx : pos + 1 + (j - (pos + 1)) = j := by omega
    have hget : (entries.drop (pos + 1)).get ⟨j - (pos + 1), hlen⟩ = entries.get ⟨j, hj⟩ := by
      rw [get_drop_add entries (pos + 1) (j - (pos + 1)) hlen (by omega)]
      simp only [hidx]
    have hfind : (entries.drop (pos + 1)).find? (entryHasPath pathStr) =
        some (entries.get ⟨j, hj⟩) := by
      rw [← hget]
      apply find?_eq_get_of_first
      · rw [hget]
        exact hpathj
      · intro i hi hij
        have hlt : pos + 1 + i < entries.length := by
          rw [List.length_drop] at hi
          omega
        rw [get_drop_add entries (pos + 1) i hi hlt]
        exact hfirst (pos + 1 + i) hlt (by omega) (by omega)
    rw [hfind]
  · intro hnone revs hb
    unfold openDiffPrevRev
    rw [hstart]
    have hfind : (entries.drop (pos + 1)).find? (entryHasPath pathStr) = none := by
      rw [List.find?_eq_none]
      intro x hx
      obtain ⟨⟨i, hi⟩, hxe⟩ := List.mem_iff_get.mp hx
      have hlt : pos + 1 + i < entries.length := by
        rw [List.length_drop] at hi
        omega
      have hx' : x = entries.get ⟨pos + 1 + i, hlt⟩ := by
        rw [← hxe, get_drop_add entries (pos + 1) i hi hlt]
      rw [hx', hnone (pos + 1 + i) hlt (by omega)]
      simp
    rw [hfind, hb]
    by_cases h2 : revs.length = 2
    · simp [h2]
    · simp [h2]

/-- Witness for `openDiffPrevRev_two_tier`: the spec's scenario with the
path `"p"` touched at positions 3 and 7, invoked from position 3; position
7's record is returned with zero backend calls. -/
theorem openDiffPrevRev_two_tier_witness :
    diffEntries.findIdx? (fun e => decide (e = mkLogEntryP "97" [diffPathP])) = some 3 ∧
    openDiffPrevRev emptyPageBackend diffEntries (mkLogEntryP "97" [diffPathP]) "p" =
      .ok (some (mkLogEntryP "93" [diffPathP]), 0) := by
  refine ⟨rfl, ?_⟩
  exact (openDiffPrevRev_two_tier emptyPageBackend diffEntries
      (mkLogEntryP "97" [diffPathP]) "p" 3 rfl).1
    7 (by decide) (by omega) (by decide) (by decide)

theorem findSimilarLoop_spec (wc : List String) :
    ∀ (l : List ISvnLogEntryPath) (maxSim : Nat) (fp : String),
      (findSimilarLoop wc l maxSim fp = fp ∧
        ∀ p ∈ l, simLevel (splitSlashRev p.pathStr) wc ≤ maxSim) ∨
      (∃ k, ∃ hk : k < l.length,
        findSimilarLoop wc l maxSim fp = (l.get ⟨k, hk⟩).pathStr ∧
        maxSim < simLevel (splitSlashRev (l.get ⟨k, hk⟩).pathStr) wc ∧
        (∀ j (hj : j < l.length),
          simLevel (splitSlashRev (l.get ⟨j, hj⟩).pathStr) wc ≤
            simLevel (splitSlashRev (l.get ⟨k, hk⟩).pathStr) wc) ∧
        (∀ j (hj : j < l.length), j < k →
          simLevel (splitSlashRev (l.get ⟨j, hj⟩).pathStr) wc <
            simLevel (splitSlashRev (l.get ⟨k, hk⟩).pathStr) wc)) := by
  intro l
  induction l with
  | nil =>
    intro maxSim fp
    left
    exact ⟨rfl, by simp⟩
  | cons p rest ih =>
    intro maxSim fp
    by_cases hup : maxSim < simLevel (splitSlashRev p.pathStr) wc
    · have hloop : findSimilarLoop wc (p :: rest) maxSim fp =
          findSimilarLoop wc rest (simLevel (splitSlashRev p.pathStr) wc) p.pathStr := by
        simp only [findSimilarLoop]
        rw [if_pos hup]
      rcases ih (simLevel (splitSlashRev p.pathStr) wc) p.pathStr with
        ⟨heq, hall⟩ | ⟨k, hk, heq, hgt, hmax, hfirst⟩
      · right
        refine ⟨0, by simp, ?_, hup, ?_, ?_⟩
        · rw [hloop, heq]
          exact rfl
        · intro j hj
          cases j with
          | zero => exact le_refl _
          | succ i =>
            exact hall _ (List.get_mem rest i (by simpa using hj))
        · intro j hj hj0
          omega
      · right
        refine ⟨k + 1, by simp only [List.length_cons]; omega, ?_, lt_trans hup hgt, ?_, ?_⟩
        · rw [hloop, heq]
          exact rfl
        · intro j hj
          cases j with
          | zero => exact le_of_lt hgt
          | succ i => exact hmax i (by simpa using hj)
        · intro j hj hjk
          cases j with
          | zero => exact hgt
          | succ i => exact hfirst i (by simpa using hj) (by omega)
    · have hloop : findSimilarLoop wc (p :: rest) maxSim fp =
          findSimilarLoop wc rest maxSim fp := by
        simp only [findSimilarLoop]
        rw [if_neg hup]
      push_neg at hup
      rcases ih maxSim fp with ⟨heq, hall⟩ | ⟨k, hk, heq, hgt, hmax, hfirst⟩
      · left
        refine ⟨by rw [hloop, heq], ?_⟩
        intro q hq
        rcases List.mem_cons.mp hq with rfl | hq
        · exact hup
        · exact hall q hq
      · right
        refine ⟨k + 1, by simp only [List.length_cons]; omega, ?_, hgt, ?_, ?_⟩
        · rw [hloop, heq]
          exact rfl
        · intro j hj
          cases j with
          | zero => exact le_of_lt (lt_of_le_of_lt hup hgt)
          | succ i => exact hmax i (by simpa using hj)
        · intro j hj hjk
          cases j with
          | zero => exact lt_of_le_of_lt hup hgt
          | succ i => exact hfirst i (by simpa using hj) (by omega)

/-- C8: for a commit with a non-empty changed-path list, `findSimilarPath`
selects the changed path maximizing the trailing path-component similarity
score against the working-copy path, and among the paths sharing the maximal
score the first occurrence in the commit's path list wins (every earlier
path scores strictly lower). -/
theorem findSimilarPath_max_trailing (wcPath : String)
    (commitPaths : List ISvnLogEntryPath) (hne : commitPaths ≠ []) :
    ∃ k, ∃ hk : k < commitPaths.length,
      findSimilarPath wcPath commitPaths = some ((commitPaths.get ⟨k, hk⟩).pathStr) ∧
      (∀ j (hj : j < commitPaths.length),
        pathScore wcPath (commitPaths.get ⟨j, hj⟩) ≤
          pathScore wcPath (commitPaths.get ⟨k, hk⟩)) ∧
      (∀ j (hj : j < commitPaths.length), j < k →
        pathScore wcPath (commitPaths.get ⟨j, hj⟩) <
          pathScore wcPath (commitPaths.get ⟨k, hk⟩)) := by
  cases commitPaths with
  | nil => exact absurd rfl hne
  | cons p0 rest =>
    rcases findSimilarLoop_spec (splitSlashRev wcPath) (p0 :: rest) 0 p0.pathStr with
      ⟨heq, hall⟩ | ⟨k, hk, heq, hgt, hmax, hfirst⟩
    · refine ⟨0, by simp, ?_, ?_, ?_⟩
      · show some (findSimilarLoop (splitSlashRev wcPath) (p0 :: rest) 0 p0.pathStr) = _
        rw [heq]
        exact rfl
      · intro j hj
        have hj' := hall _ (List.get_mem (p0 :: rest) j hj)
        have h0 := hall p0 (by simp)
        show pathScore wcPath ((p0 :: rest).get ⟨j, hj⟩) ≤ pathScore wcPath p0
        unfold pathScore
        omega
      · intro j hj hj0
        omega
    · exact ⟨k, hk,
        by show some (findSimilarLoop (splitSlashRev wcPath) (p0 :: rest) 0 p0.pathStr) = _
           rw [heq],
        fun j hj => hmax j hj, fun j hj hjk => hfirst j hj hjk⟩

/-- Witness for `findSimilarPath_max_trailing`: against the working-copy
path `branches/dev/src/util.ts`, the paths `trunk/src/util.ts` (score 2) and
`tags/v1/src/util.ts` (score 2) tie and the first wins over the
zero-scoring `trunk/src/other.ts`. -/
theorem findSimilarPath_max_trailing_witness :
    simScenarioPaths ≠ [] ∧
    findSimilarPath "branches/dev/src/util.ts" simScenarioPaths =
      some "trunk/src/util.ts" ∧
    (∃ k, ∃ hk : k < simScenarioPaths.length,
      findSimilarPath "branches/dev/src/util.ts" simScenarioPaths =
        some ((simScenarioPaths.get ⟨k, hk⟩).pathStr) ∧
      (∀ j (hj : j < simScenarioPaths.length),
        pathScore "branches/dev/src/util.ts" (simScenarioPaths.get ⟨j, hj⟩) ≤
          pathScore "branches/dev/src/util.ts" (simScenarioPaths.get ⟨k, hk⟩)) ∧
      (∀ j (hj : j < simScenarioPaths.length), j < k →
        pathScore "branches/dev/src/util.ts" (simScenarioPaths.get ⟨j, hj⟩) <
          pathScore "branches/dev/src/util.ts" (simScenarioPaths.get ⟨k, hk⟩))) :=
  ⟨by decide, rfl,
    findSimilarPath_max_trailing "branches/dev/src/util.ts" simScenarioPaths (by decide)⟩

theorem sameBlameRun_refl (e : ISvnBlameEntry) : sameBlameRun e e = true := by
  unfold sameBlameRun
  cases e.commit with
  | none => rfl
  | some c => simp

theorem sameBlameRun_iff (a b : ISvnBlameEntry) :
    sameBlameRun a b = true ↔ entryCls a = entryCls b := by
  unfold sameBlameRun entryCls
  cases a.commit with
  | none =>
    cases b.commit with
    | none => simp
    | some cb => simp
  | some ca =>
    cases b.commit with
    | none => simp
    | some cb => simp

theorem transformBlamesLoop_acc :
    ∀ (rest : List ISvnBlameEntry) (last : ISvnBlameEntry) (s : Nat) (acc : List IBlameRange),
      transformBlamesLoop rest last s acc = acc ++ runsFrom last s rest := by
  intro rest
  induction rest with
  | nil => intro last s acc; rfl
  | cons b rest ih =>
    intro last s acc
    simp only [transformBlamesLoop, runsFrom]
    by_cases hs : sameBlameRun last b = true
    · rw [if_pos hs, if_pos hs, ih]
    · rw [if_neg hs, if_neg hs, ih]
      simp

theorem transformBlames_eq_runsFrom (e : ISvnBlameEntry) (rest : List ISvnBlameEntry) :
    transformBlames (e :: rest) = runsFrom e 0 rest := by
  show transformBlamesLoop (e :: rest) e 0 [] = _
  simp only [transformBlamesLoop]
  rw [if_pos (sameBlameRun_refl e), transformBlamesLoop_acc]
  rfl

theorem consecutiveLines_lt : ∀ (l : List ISvnBlameEntry) (a : ISvnBlameEntry),
    consecutiveLines a l → ∀ x ∈ l, a.lineNumber < x.lineNumber := by
  intro l
  induction l with
  | nil => intro a _ x hx; cases hx
  | cons b rest ih =>
    intro a hc x hx
    obtain ⟨hb, hrest⟩ := hc
    rcases List.mem_cons.mp hx with rfl | hx
    · omega
    · have := ih b hrest x hx
      omega

theorem chainFrom_le : ∀ (l : List IBlameRange) (s e : Nat),
    chainFrom s l e → ∀ r ∈ l, s ≤ r.lineStart := by
  intro l
  induction l with
  | nil => intro s e _ r hr; cases hr
  | cons r0 rest ih =>
    intro s e hc r hr
    obtain ⟨h1, h2, h3⟩ := hc
    rcases List.mem_cons.mp hr with rfl | hr
    · omega
    · have := ih r0.lineEnd e h3 r hr
      omega

theorem runsFrom_ne_nil : ∀ (rest : List ISvnBlameEntry) (last : ISvnBlameEntry) (s : Nat),
    runsFrom last s rest ≠ [] := by
  intro rest
  induction rest with
  | nil => intro last s; simp [runsFrom]
  | cons b rest ih =>
    intro last s
    simp only [runsFrom]
    by_cases hs : sameBlameRun last b = true
    · rw [if_pos hs]; exact ih b s
    · rw [if_neg hs]; simp

theorem rangeCls_convertBlame (s : Nat) (e : ISvnBlameEntry) :
    rangeCls (convertBlame s e) = (entryCls e).map (fun v => (jsParseInt v).getD 0) := by
  unfold rangeCls convertBlame entryCls
  cases e.commit <;> rfl

theorem runsFrom_spec : ∀ (rest : List ISvnBlameEntry) (last : ISvnBlameEntry) (s : Nat),
    s < last.lineNumber → consecutiveLines last rest →
    (chainFrom s (runsFrom last s rest) (last.lineNumber + rest.length) ∧
      (∀ r0 ∈ (runsFrom last s rest).head?, last.lineNumber ≤ r0.lineEnd) ∧
      (∀ e ∈ last :: rest, ∀ e' ∈ last :: rest, e'.lineNumber = e.lineNumber + 1 →
        ((∃ r ∈ runsFrom last s rest, r.lineStart = e.lineNumber) ↔
          entryCls e ≠ entryCls e')) ∧
      (∀ r ∈ runsFrom last s rest, ∀ e ∈ last :: rest,
        r.lineStart < e.lineNumber → e.lineNumber ≤ r.lineEnd →
        (entryCls e).map (fun v => (jsParseInt v).getD 0) = rangeCls r)) := by
  intro rest
  induction rest with
  | nil =>
    intro last s hs _
    refine ⟨⟨rfl, hs, rfl⟩, ?_, ?_, ?_⟩
    · intro r0 hr0
      rw [Option.mem_def] at hr0
      injection hr0 with hr0
      rw [← hr0]
      exact le_refl _
    · intro e he e' he' hnum
      rcases List.mem_singleton.mp he with rfl
      rcases List.mem_singleton.mp he' with rfl
      exact absurd hnum (by omega)
    · intro r hr e he h1 h2
      rcases List.mem_singleton.mp hr with rfl
      rcases List.mem_singleton.mp he with rfl
      exact (rangeCls_convertBlame s e).symm
  | cons b rest ih =>
    intro last s hs hcons
    obtain ⟨hb, hrest⟩ := hcons
    by_cases hsame : sameBlameRun last b = true
    · have hcls : entryCls last = entryCls b := (sameBlameRun_iff last b).mp hsame
      have hrun : runsFrom last s (b :: rest) = runsFrom b s rest := by
        simp only [runsFrom]
        rw [if_pos hsame]
      have hsb : s < b.lineNumber := by omega
      obtain ⟨ihA, ihD, ihM, ihB⟩ := ih b s hsb hrest
      obtain ⟨r0, rs', hrs⟩ : ∃ r0 rs', runsFrom b s rest = r0 :: rs' := by
        cases hcase : runsFrom b s rest with
        | nil => exact absurd hcase (runsFrom_ne_nil rest b s)
        | cons x xs => exact ⟨x, xs, rfl⟩
      have hr0start : r0.lineStart = s := by
        rw [hrs] at ihA
        exact ihA.1
      have hr0endb : b.lineNumber ≤ r0.lineEnd := ihD r0 (by rw [hrs]; rfl)
      have htail : ∀ r ∈ rs', r0.lineEnd ≤ r.lineStart := by
        rw [hrs] at ihA
        exact chainFrom_le rs' r0.lineEnd _ ihA.2.2
      refine ⟨?_, ?_, ?_, ?_⟩
      · rw [hrun]
        have hlen : last.lineNumber + (b :: rest).length = b.lineNumber + rest.length := by
          simp only [List.length_cons]
          omega
        rw [hlen]
        exact ihA
      · intro q hq
        rw [hrun] at hq
        have := ihD q hq
        omega
      · intro e he e' he' hnum
        rw [hrun]
        rcases List.mem_cons.mp he with rfl | he2
        · have he'b : e' = b := by
            rcases List.mem_cons.mp he' with rfl | he'2
            · exact absurd hnum (by omega)
            · rcases List.mem_cons.mp he'2 with rfl | he'3
              · rfl
              · have := consecutiveLines_lt rest b hrest e' he'3
                exact absurd hnum (by omega)
          subst he'b
          constructor
          · rintro ⟨r, hr, hrstart⟩
            rw [hrs] at hr
            rcases List.mem_cons.mp hr with rfl | hr2
            · exact absurd hrstart (by omega)
            · have h1 := htail r hr2
              exact absurd hrstart (by omega)
          · intro hne
            exact absurd hcls hne
        · have he'mem : e' ∈ b :: rest := by
            rcases List.mem_cons.mp he' with rfl | he'2
            · exfalso
              have hble : b.lineNumber ≤ e.lineNumber := by
                rcases List.mem_cons.mp he2 with rfl | he3
                · omega
                · have := consecutiveLines_lt rest b hrest e he3
                  omega
              omega
            · exact he'2
          exact ihM e he2 e' he'mem hnum
      · intro r hr e he h1 h2
        rw [hrun] at hr
        rcases List.mem_cons.mp he with rfl | he2
        · rw [hrs] at hr
          rcases List.mem_cons.mp hr with rfl | hr2
          · have hres := ihB r (by rw [hrs]; exact List.mem_cons_self r rs')
              b (List.mem_cons_self b rest) (by omega) (by omega)
            rw [hcls]
            exact hres
          · have h3 := htail r hr2
            exact absurd h1 (by omega)
        · exact ihB r hr e he2 h1 h2
    · have hclsne : entryCls last ≠ entryCls b := by
        intro hcl
        exact hsame ((sameBlameRun_iff last b).mpr hcl)
      have hrun : runsFrom last s (b :: rest) =
          convertBlame s last :: runsFrom b last.lineNumber rest := by
        simp only [runsFrom]
        rw [if_neg hsame]
        rfl
      have hpb : last.lineNumber < b.lineNumber := by omega
      obtain ⟨ihA, ihD, ihM, ihB⟩ := ih b last.lineNumber hpb hrest
      obtain ⟨r0', rs'', hrs'⟩ : ∃ r0 rs', runsFrom b last.lineNumber rest = r0 :: rs' := by
        cases hcase : runsFrom b last.lineNumber rest with
        | nil => exact absurd hcase (runsFrom_ne_nil rest b last.lineNumber)
        | cons x xs => exact ⟨x, xs, rfl⟩
      have hr0'start : r0'.lineStart = last.lineNumber := by
        rw [hrs'] at ihA
        exact ihA.1
      have hr0'endb : b.lineNumber ≤ r0'.lineEnd := ihD r0' (by rw [hrs']; rfl)
      have htail' : ∀ r ∈ rs'', r0'.lineEnd ≤ r.lineStart := by
        rw [hrs'] at ihA
        exact chainFrom_le rs'' r0'.lineEnd _ ihA.2.2
      refine ⟨?_, ?_, ?_, ?_⟩
      · rw [hrun]
        refine ⟨rfl, hs, ?_⟩
        have hlen : last.lineNumber + (b :: rest).length = b.lineNumber + rest.length := by
          simp only [List.length_cons]
          omega
        rw [hlen]
        exact ihA
      · intro q hq
        rw [hrun, Option.mem_def] at hq
        injection hq with hq
        rw [← hq]
        exact le_refl _
      · intro e he e' he' hnum
        rw [hrun]
        rcases List.mem_cons.mp he with rfl | he2
        · have he'b : e' = b := by
            rcases List.mem_cons.mp he' with rfl | he'2
            · exact absurd hnum (by omega)
            · rcases List.mem_cons.mp he'2 with rfl | he'3
              · rfl
              · have := consecutiveLines_lt rest b hrest e' he'3
                exact absurd hnum (by omega)
          subst he'b
          constructor
          · intro _
            exact hclsne
          · intro _
            refine ⟨r0', ?_, hr0'start⟩
            rw [hrs']
            exact List.mem_cons_of_mem _ (List.mem_cons_self r0' rs'')
        · have he'mem : e' ∈ b :: rest := by
            rcases List.mem_cons.mp he' with rfl | he'2
            · exfalso
              have hble : b.lineNumber ≤ e.lineNumber := by
                rcases List.mem_cons.mp he2 with rfl | he3
                · omega
                · have := consecutiveLines_lt rest b hrest e he3
                  omega
              omega
            · exact he'2
          have hiff := ihM e he2 e' he'mem hnum
          have hble : b.lineNumber ≤ e.lineNumber := by
            rcases List.mem_cons.mp he2 with rfl | he3
            · omega
            · have := consecutiveLines_lt rest b hrest e he3
              omega
          constructor
          · rintro ⟨r, hr, hrstart⟩
            rcases List.mem_cons.mp hr with rfl | hr2
            · exfalso
              have hseq : s = e.lineNumber := hrstart
              omega
            · exact hiff.mp ⟨r, hr2, hrstart⟩
          · intro hne
            obtain ⟨r, hr, hrstart⟩ := hiff.mpr hne
            exact ⟨r, List.mem_cons_of_mem _ hr, hrstart⟩
      · intro r hr e he h1 h2
        rw [hrun] at hr
        rcases List.mem_cons.mp hr with rfl | hr2
        · rcases List.mem_cons.mp he with rfl | he2
          · exact (rangeCls_convertBlame s e).symm
          · exfalso
            have hble : b.lineNumber ≤ e.lineNumber := by
              rcases List.mem_cons.mp he2 with rfl | he3
              · omega
              · have := consecutiveLines_lt rest b hrest e he3
                omega
            have h2' : e.lineNumber ≤ last.lineNumber := h2
            omega
        · rcases List.mem_cons.mp he with rfl | he2
          · exfalso
            have hge : e.lineNumber ≤ r.lineStart := by
              rw [hrs'] at hr2
              rcases List.mem_cons.mp hr2 with rfl | hr3
              · omega
              · have := htail' r hr3
                omega
            omega
          · exact ihB r hr2 e he2 h1 h2

theorem consecutiveLines_of_index : ∀ (l : List ISvnBlameEntry) (a : ISvnBlameEntry),
    (∀ k (hk : k < l.length), (l.get ⟨k, hk⟩).lineNumber = a.lineNumber + 1 + k) →
    consecutiveLines a l := by
  intro l
  induction l with
  | nil => intro a _; exact trivial
  | cons b rest ih =>
    intro a h
    have hb : b.lineNumber = a.lineNumber + 1 := by
      have := h 0 (by simp)
      simpa using this
    refine ⟨hb, ?_⟩
    apply ih b
    intro k hk
    have h2 : (rest.get ⟨k, hk⟩).lineNumber = a.lineNumber + 1 + (k + 1) :=
      h (k + 1) (by simpa using hk)
    omega

/-- C2: for a blame listing whose k-th entry (zero-based) carries the
1-based line number k+1, `transformBlames` produces ranges that tile
`[0, N)` in order, without overlap and without gaps (`chainFrom`); a range
boundary sits at line k+1 exactly when lines k and k+1 differ in equivalence
class (same class means both uncommitted, or both committed with equal
revision string), so maximal runs of one class are never split or merged and
an uncommitted line never joins a committed range; every line of a range
carries the range's recorded class (committedness and parsed revision); and
the concrete 15-line scenario — lines 1-5 at revision "5", 6-10 uncommitted,
11-15 at revision "5" — yields exactly the ranges `[0,5,r5]`, `[5,10,none]`,
`[10,15,r5]`, not merged across the uncommitted gap. -/
theorem transformBlames_run_length (input : List ISvnBlameEntry)
    (h : ∀ k (hk : k < input.length), (input.get ⟨k, hk⟩).lineNumber = k + 1) :
    chainFrom 0 (transformBlames input) input.length ∧
    (∀ k (hk1 : k + 1 < input.length),
      ((∃ r ∈ transformBlames input, r.lineStart = k + 1) ↔
        entryCls (input.get ⟨k, by omega⟩) ≠ entryCls (input.get ⟨k + 1, hk1⟩))) ∧
    (∀ r ∈ transformBlames input, ∀ k (hk : k < input.length),
      r.lineStart ≤ k → k < r.lineEnd →
      (entryCls (input.get ⟨k, hk⟩)).map (fun v => (jsParseInt v).getD 0) = rangeCls r) ∧
    transformBlames blameScenarioInput = blameScenarioExpected := by
  have hscen : transformBlames blameScenarioInput = blameScenarioExpected := by decide
  cases input with
  | nil =>
    refine ⟨rfl, ?_, ?_, hscen⟩
    · intro k hk1
      exact absurd hk1 (by simp)
    · intro r hr
      exact absurd hr (List.not_mem_nil r)
  | cons e rest =>
    have h0 : e.lineNumber = 1 := by
      have := h 0 (by simp)
      simpa using this
    have hcons : consecutiveLines e rest := by
      apply consecutiveLines_of_index
      intro k hk
      have h2 : (rest.get ⟨k, hk⟩).lineNumber = (k + 1) + 1 := h (k + 1) (by simpa using hk)
      omega
    have hrw : transformBlames (e :: rest) = runsFrom e 0 rest :=
      transformBlames_eq_runsFrom e rest
    obtain ⟨mA, mD, mM, mB⟩ := runsFrom_spec rest e 0 (by omega) hcons
    refine ⟨?_, ?_, ?_, hscen⟩
    · rw [hrw]
      have hlen : (e :: rest).length = e.lineNumber + rest.length := by
        simp only [List.length_cons]
        omega
      rw [hlen]
      exact mA
    · intro k hk1
      rw [hrw]
      have hkm : (e :: rest).get ⟨k, by omega⟩ ∈ e :: rest := List.get_mem _ _ _
      have hk1m : (e :: rest).get ⟨k + 1, hk1⟩ ∈ e :: rest := List.get_mem _ _ _
      have hke : ((e :: rest).get ⟨k, by omega⟩).lineNumber = k + 1 := h k (by omega)
      have hk1e : ((e :: rest).get ⟨k + 1, hk1⟩).lineNumber = (k + 1) + 1 := h (k + 1) hk1
      have hm := mM _ hkm _ hk1m (by omega)
      rw [hke] at hm
      exact hm
    · intro r hr k hk hk1 hk2
      rw [hrw] at hr
      have hkm := List.get_mem (e :: rest) k hk
      have hke := h k hk
      refine mB r hr _ hkm ?_ ?_
      · rw [hke]
        omega
      · rw [hke]
        omega

/-- Witness for `transformBlames_run_length` at the scenario input. -/
theorem transformBlames_run_length_witness :
    (∀ k (hk : k < blameScenarioInput.length),
      (blameScenarioInput.get ⟨k, hk⟩).lineNumber = k + 1) ∧
    (chainFrom 0 (transformBlames blameScenarioInput) blameScenarioInput.length ∧
      (∀ k (hk1 : k + 1 < blameScenarioInput.length),
        ((∃ r ∈ transformBlames blameScenarioInput, r.lineStart = k + 1) ↔
          entryCls (blameScenarioInput.get ⟨k, by omega⟩) ≠
            entryCls (blameScenarioInput.get ⟨k + 1, hk1⟩))) ∧
      (∀ r ∈ transformBlames blameScenarioInput,
        ∀ k (hk : k < blameScenarioInput.length),
        r.lineStart ≤ k → k < r.lineEnd →
        (entryCls (blameScenarioInput.get ⟨k, hk⟩)).map (fun v => (jsParseInt v).getD 0) =
          rangeCls r) ∧
      transformBlames blameScenarioInput = blameScenarioExpected) :=
  ⟨by decide, transformBlames_run_length blameScenarioInput (by decide)⟩
